import Mathlib

/-!
Verification of the audio-segmentation and transcription pipeline of
YoutubeTranscriberGUI (`youtube_transcriber.py` and its near-identical GUI copy
`youtube_transcriber_gui.py`) against its natural-language specification.

Modelling conventions:
* A pydub `AudioSegment` is modelled by its length in milliseconds (`ℕ`);
  `len(chunk)` is that number, and `chunk[start:end]` has length `end - start`.
* Python `str` is modelled as `List Char`; `" ".join`, `.strip()` and
  truthiness (`if text:`) are modelled on `List Char`.
* The Python floats (IEEE binary64) arising in `split_audio_intelligently`
  are nonnegative dyadic rationals in the normal range.  A float value is
  represented as a pair `(m, d) : ℕ × ℤ` standing for `m * 2 ^ d`, and the
  two float operations the source performs — `len(chunk) / num_sub_chunks`
  and `j * sub_chunk_len` — are modelled by `divRound` and `mulRound`:
  the exact rational result rounded to at most 53 significant bits with
  round-to-nearest, ties-to-even, exactly as binary64 arithmetic computes
  them.  All values in this development are far from overflow/underflow and
  every integer operand stays below `2 ^ 53` (so `int → float` conversion is
  exact), hence the model agrees with CPython bit-for-bit on everything
  stated here.
* `int()` applied to a nonnegative float is the floor (`floorDy`), and
  `min(float, int)` followed by `int()` is `min (floorDy x) L`.
* External effects (pydub's `split_on_silence` output, success of
  `chunk.export`, the transcription backends, `whisper` availability) are
  parameters of the model.
-/

/-! ### Binary64 model on naturals -/

/-- Number of binary digits of `n`, computed with explicit structural fuel so
that the kernel can evaluate it.  `bitsF fuel n` is correct when `n ≤ fuel`. -/
def bitsF : ℕ → ℕ → ℕ
  | 0, _ => 0
  | fuel + 1, n => if n = 0 then 0 else bitsF fuel (n / 2) + 1

/-- Number of binary digits of `n` (`nbits 0 = 0`, `nbits 5 = 3`). -/
def nbits (n : ℕ) : ℕ := bitsF n n

/-- Round the rational `N / D` to the nearest integer, ties to even (the
binary64 rounding rule applied to a scaled significand). -/
def rho (N D : ℕ) : ℕ :=
  let q := N / D
  let r := N % D
  if 2 * r < D then q else if D < 2 * r then q + 1
  else if q % 2 = 0 then q else q + 1

/-- The IEEE-754 binary64 quotient of two naturals `a / b` (round to nearest,
ties to even), as a dyadic pair `(significand, exponent)`.  Requires
`1 ≤ b ≤ a` to be meaningful (all uses in the source satisfy this). -/
def divRound (a b : ℕ) : ℕ × ℤ :=
  let E := nbits (a / b) - 1
  (rho (a * 2 ^ 52) (b * 2 ^ E), (E : ℤ) - 52)

/-- The IEEE-754 binary64 product of a natural `j < 2 ^ 53` (exactly
representable) with a dyadic float `s`, rounded to nearest, ties to even. -/
def mulRound (j : ℕ) (s : ℕ × ℤ) : ℕ × ℤ :=
  let P := j * s.1
  let k := nbits P
  if k ≤ 53 then (P, s.2)
  else (rho P (2 ^ (k - 53)), s.2 + ((k - 53 : ℕ) : ℤ))

/-- `int()` of a nonnegative dyadic float: the floor. -/
def floorDy (x : ℕ × ℤ) : ℕ :=
  if 0 ≤ x.2 then x.1 * 2 ^ x.2.toNat else x.1 / 2 ^ (-x.2).toNat

/-- The rational value of a dyadic float. -/
def dval (x : ℕ × ℤ) : ℚ := (x.1 : ℚ) * 2 ^ x.2

-- sanity checks: kernel evaluation of the float model
example : nbits 61 = 6 := by decide
example : divRound 61 7 = (4905706736957147, -49) := by decide
example : floorDy (mulRound 3 (divRound 61 7)) = 26 := by decide
example : floorDy (mulRound 7 (divRound 61 7)) = 60 := by decide

/-! ### `split_audio_intelligently` (youtube_transcriber.py:96-159, GUI copy
youtube_transcriber_gui.py:101-161)

The silence-splitting itself is pydub's `split_on_silence`, an external
collaborator; its output (a list of segment lengths) is a parameter
`silence`.  The per-chunk `chunk.export` call can raise; whether the `k`-th
export attempt of a run succeeds is a parameter `ok : ℕ → Bool`, consulted in
attempt order. -/

/-- `num_sub_chunks = (len(chunk) + chunk_length_limit_ms - 1) //
chunk_length_limit_ms` (youtube_transcriber.py:124): ceiling division. -/
def numSub (len limit : ℕ) : ℕ := (len + limit - 1) / limit

/-- Boundaries of sub-chunk `j` of an over-long chunk of length `len`
(youtube_transcriber.py:125-129): `sub_chunk_len = len(chunk) /
num_sub_chunks` in float arithmetic, `start_ms = int(j * sub_chunk_len)`,
`end_ms = int(min((j + 1) * sub_chunk_len, len(chunk)))`. -/
def subBounds (len limit j : ℕ) : ℕ × ℕ :=
  let s := divRound len (numSub len limit)
  (floorDy (mulRound j s), min (floorDy (mulRound (j + 1) s)) len)

/-- A chunk written to disk as `chunk_{idx}.wav`: its filename index, its
duration in ms, and whether it came from the time-splitting branch. -/
structure Emitted where
  idx : ℕ
  dur : ℕ
  fromSplit : Bool
deriving DecidableEq

/-- Loop state: (export attempts made, `total_chunks`, emitted chunks). -/
abbrev SplitState := ℕ × ℕ × List Emitted

/-- One iteration of the inner `for j in range(num_sub_chunks)` loop
(youtube_transcriber.py:127-140): skip empty sub-chunks, else export
`chunk_{total_chunks}.wav` and count it only if the export succeeds. -/
def innerStep (len limit : ℕ) (ok : ℕ → Bool) (st : SplitState) (j : ℕ) :
    SplitState :=
  let (att, tot, acc) := st
  let p := subBounds len limit j
  if p.2 ≤ p.1 then (att, tot, acc)
  else if ok att then (att + 1, tot + 1, acc ++ [⟨tot, p.2 - p.1, true⟩])
  else (att + 1, tot, acc)

/-- One iteration of the outer `for i, chunk in enumerate(chunks)` loop
(youtube_transcriber.py:121-153): over-long chunks are time-split, chunks
shorter than 100 ms are skipped, the rest are exported directly. -/
def processOne (limit : ℕ) (ok : ℕ → Bool) (st : SplitState) (len : ℕ) :
    SplitState :=
  if limit < len then
    (List.range (numSub len limit)).foldl (innerStep len limit ok) st
  else if len < 100 then st
  else
    let (att, tot, acc) := st
    if ok att then (att + 1, tot + 1, acc ++ [⟨tot, len, false⟩])
    else (att + 1, tot, acc)

/-- `chunks = [audio]` fallback when `split_on_silence` found nothing
(youtube_transcriber.py:113-115): the segmentation stage never hands zero
segments to the bounding stage. -/
def segmentsForProcessing (audioLen : ℕ) (silence : List ℕ) : List ℕ :=
  if silence.isEmpty then [audioLen] else silence

/-- `split_audio_intelligently` after the audio is loaded: `split_on_silence`
produced `silence`; if it is empty the whole audio is processed as a single
chunk (youtube_transcriber.py:113-115); then every chunk is bounded and
exported.  Returns the emitted chunks in order. -/
def splitAudioIntelligently (audioLen : ℕ) (silence : List ℕ) (limit : ℕ)
    (ok : ℕ → Bool) : List Emitted :=
  ((segmentsForProcessing audioLen silence).foldl
    (processOne limit ok) (0, 0, [])).2.2

-- sanity: the 61 ms segment with a 9 ms limit (cf. C1)
example :
    (splitAudioIntelligently 61 [61] 9 (fun _ => true)).map Emitted.dur =
      [8, 9, 9, 8, 9, 9, 8] := by decide
-- sanity: a 150 ms segment with a 50 ms limit (cf. C2)
example :
    splitAudioIntelligently 150 [150] 50 (fun _ => true) =
      [⟨0, 50, true⟩, ⟨1, 50, true⟩, ⟨2, 50, true⟩] := by decide

/-! ### Python strings -/

/-- `str.strip()` with no argument: remove leading and trailing
whitespace. -/
def pyStrip (l : List Char) : List Char :=
  List.rdropWhile Char.isWhitespace (List.dropWhile Char.isWhitespace l)

/-- `" ".join(parts)`. -/
def joinSpace (parts : List (List Char)) : List Char :=
  List.intercalate [' '] parts

/-! ### Transcription backends
(`transcribe_chunk_whisper`, youtube_transcriber.py:162-179 and GUI copy
lines 164-179; `transcribe_chunk_google`, youtube_transcriber.py:182-205 and
GUI copy lines 181-199)

A backend invocation is an external effect: its outcome is a parameter.  For
Whisper the whole body after the availability check sits in one
`try/except`, so the outcome is `Except Unit (List Char)`: `.ok t` means
`model.transcribe` returned raw text `t`, `.error` means anything in the
`try` block raised.  For Google the outcomes are distinguished per handler. -/

/-- `transcribe_chunk_whisper`: returns `""` if whisper is unavailable,
`result['text'].strip()` on success, and `""` when anything in the `try`
block (model load or transcription) raises. -/
def transcribeChunkWhisper (avail : Bool) (res : Except Unit (List Char)) :
    List Char :=
  if avail then
    match res with
    | .ok t => pyStrip t
    | .error _ => []
  else []

/-- Outcome of the Google recognition phase inside the `with` block. -/
inductive GoogleOutcome where
  | recognized (t : List Char)  -- recognize_google returned text `t`
  | unknownValue                -- sr.UnknownValueError
  | requestError                -- sr.RequestError
  | waitTimeout                 -- sr.WaitTimeoutError
  | otherError                  -- any other exception inside the try
deriving DecidableEq

/-- `transcribe_chunk_google`: the `with sr.AudioFile(chunk_path) as source:`
line sits OUTSIDE the `try`, so a failure opening the chunk file propagates
to the caller (`.error`); every outcome of the recognition phase inside the
`try` is caught and mapped to a string. -/
def transcribeChunkGoogle (openOk : Bool) (res : GoogleOutcome) :
    Except Unit (List Char) :=
  if openOk then
    Except.ok (match res with
      | .recognized t => pyStrip t
      | _ => [])
  else Except.error ()

/-- The `whisper.load_model(model_size, ...)` invocations performed during a
run of the main loop over `results.length` chunks: `transcribe_chunk_whisper`
calls `load_model` anew on every invocation (youtube_transcriber.py:173). -/
def whisperLoadsInRun (avail : Bool) (size : List Char)
    (results : List (Except Unit (List Char))) : List (List Char) :=
  results.foldl (fun loads _ => loads ++ (if avail then [size] else [])) []

/-! ### The orchestrator (`main`, youtube_transcriber.py:209-304; the GUI
`run_transcription_process`, youtube_transcriber_gui.py:203-296, is the same
loop).  The whisper engine is used; `results` are the per-chunk backend
outcomes in chunk order. -/

/-- The accumulation of `full_transcript` by the loop at lines 260-280:
`if text: full_transcript.append(text)`. -/
def mainParts (results : List (Except Unit (List Char))) :
    List (List Char) :=
  results.foldl (fun parts r =>
    let text := transcribeChunkWhisper true r
    if text.isEmpty then parts else parts ++ [text]) []

/-- Per-chunk recorded status: `true` if the chunk's text was appended,
`false` if the loop logged "resulted in empty or failed transcription". -/
def mainStatuses (results : List (Except Unit (List Char))) : List Bool :=
  results.map (fun r => !(transcribeChunkWhisper true r).isEmpty)

/-- `final_text = " ".join(full_transcript).strip()` (line 283). -/
def mainFinal (results : List (Except Unit (List Char))) : List Char :=
  pyStrip (joinSpace (mainParts results))

/-- Terminal state of `main` after the splitting stage. -/
inductive MainOutcome where
  | noChunks                    -- "No audio chunks were generated …"; return
  | done (transcript : List Char)
deriving DecidableEq

/-- `main` from the splitting stage on: the guard at lines 249-251 returns
before the transcription loop when no chunks were produced.  The second
component is the list of chunks actually handed to the backend. -/
def mainModel (audioLen : ℕ) (silence : List ℕ) (limit : ℕ) (ok : ℕ → Bool)
    (backend : Emitted → Except Unit (List Char)) :
    MainOutcome × List Emitted :=
  let chunkPaths := splitAudioIntelligently audioLen silence limit ok
  if chunkPaths.isEmpty then (.noChunks, [])
  else (.done (mainFinal (chunkPaths.map backend)), chunkPaths)

/-! ### Generic fold invariants -/

theorem foldl_invariant {α : Type} {β : Type} (f : α → β → α) (P : α → Prop)
    (hstep : ∀ a b, P a → P (f a b)) :
    ∀ (l : List β) (init : α), P init → P (l.foldl f init) := by
  intro l
  induction l with
  | nil => intro init h0; exact h0
  | cons x xs ih => intro init h0; exact ih _ (hstep _ _ h0)

/-! ### C1 -/

/-- C1: the claim states that for a segment longer than
`chunk_length_limit_ms` the sub-chunks produced by
`split_audio_intelligently` sum exactly to the segment's duration.  The code
violates this: a 61 ms segment with a 9 ms limit yields sub-chunks of
8+9+9+8+9+9+8 = 60 ms (the float division `61/7` rounds below the exact
value, so the last boundary `int(7 * sub_chunk_len)` is 60, not 61, and one
millisecond of audio is silently dropped).  The same happens at the default
configuration (`chunk_length_limit_ms = 120000`): a 4 080 002 ms segment
yields sub-chunks summing to 4 080 001 ms. -/
theorem claim1_split_loses_audio :
    ((splitAudioIntelligently 61 [61] 9 (fun _ => true)).map
        Emitted.dur).sum = 60 ∧
    ((splitAudioIntelligently 4080002 [4080002] 120000 (fun _ => true)).map
        Emitted.dur).sum = 4080001 := by
  constructor
  · decide
  · decide

/-! ### C2 -/

/-- C2 (counterexample): the claim states that no emitted chunk has duration
below 100 ms under any configuration.  False: with
`chunk_length_limit_ms = 50`, a 150 ms segment is time-split into three
50 ms sub-chunks, all of which are exported — the `len(chunk) < 100` filter
(youtube_transcriber.py:143) only guards the non-splitting branch. -/
theorem claim2_short_subchunk_emitted :
    ¬ ∀ c ∈ splitAudioIntelligently 150 [150] 50 (fun _ => true),
        100 ≤ c.dur := by decide

/-! ### C3 -/

/-- C3: segmentation always yields at least one segment: when
`split_on_silence` returns no chunks, the whole buffer is processed as the
single segment `[audio]` (youtube_transcriber.py:113-115). -/
theorem claim3_nonempty_segmentation (audioLen : ℕ) (silence : List ℕ) :
    segmentsForProcessing audioLen silence ≠ [] ∧
    (silence = [] → segmentsForProcessing audioLen silence = [audioLen]) := by
  constructor
  · unfold segmentsForProcessing
    rcases silence with _ | ⟨x, xs⟩ <;> simp
  · intro h
    subst h
    rfl

/-- C3 witness: a 5000 ms buffer in which no silence run qualified. -/
theorem claim3_witness :
    segmentsForProcessing 5000 [] ≠ [] ∧
    ([] = ([] : List ℕ) → segmentsForProcessing 5000 [] = [5000]) :=
  claim3_nonempty_segmentation 5000 []

/-! ### C8 -/

/-- C8: if splitting yields zero chunks, `main` stops at the guard
(youtube_transcriber.py:249-251) with the no-chunks outcome and the backend
is never invoked (the invocation trace is empty). -/
theorem claim8_no_chunks_no_backend (audioLen : ℕ) (silence : List ℕ)
    (limit : ℕ) (ok : ℕ → Bool)
    (backend : Emitted → Except Unit (List Char))
    (h : splitAudioIntelligently audioLen silence limit ok = []) :
    mainModel audioLen silence limit ok backend = (.noChunks, []) := by
  unfold mainModel
  rw [h]
  rfl

/-- C8 witness: a 50 ms buffer, entirely shorter than the 100 ms minimum, is
dropped, zero chunks survive, and no transcription call is attempted. -/
theorem claim8_witness :
    mainModel 50 [] 1000 (fun _ => true) (fun _ => Except.ok []) =
      (.noChunks, []) :=
  claim8_no_chunks_no_backend 50 [] 1000 (fun _ => true)
    (fun _ => Except.ok []) (by decide)

/-! ### C9 -/

/-- C9 (counterexample): the claim states the local-model backend loads the
sized model at most once per size tier and caches it.  False:
`transcribe_chunk_whisper` calls `whisper.load_model(model_size, ...)` on
every invocation (youtube_transcriber.py:173), so a run over two chunks with
the same size loads the model twice. -/
theorem claim9_model_reloaded_every_call :
    ¬ (whisperLoadsInRun true ['b', 'a', 's', 'e']
        [Except.ok [], Except.ok []]).length ≤ 1 := by decide

/-- C9 (amended): each invocation of `transcribe_chunk_whisper` loads the
model anew — over a run of `n` chunks the model named `size` is loaded
exactly `n` times; no in-memory cache keyed by tier exists. -/
theorem claim9_amended_load_per_call (size : List Char)
    (results : List (Except Unit (List Char))) :
    whisperLoadsInRun true size results =
      List.replicate results.length size := by
  unfold whisperLoadsInRun
  suffices h : ∀ (l : List (Except Unit (List Char))) (acc : List (List Char)),
      l.foldl (fun loads _ => loads ++ (if true then [size] else [])) acc =
        acc ++ List.replicate l.length size by
    rw [h results []]
    rfl
  intro l
  induction l with
  | nil =>
      intro acc
      simp [List.replicate]
  | cons x xs ih =>
      intro acc
      rw [List.foldl_cons, ih (acc ++ if true then [size] else []),
        List.length_cons, List.replicate_succ]
      simp

/-! ### C10 -/

/-- C10 (counterexample): the claim states every internal failure of the
per-chunk transcription functions is caught and returned as `""`, so that no
exception reaches the orchestrator loop.  False for
`transcribe_chunk_google`: the `with sr.AudioFile(chunk_path) as source:`
statement (youtube_transcriber.py:185) sits outside the `try`, so an error
opening the chunk file propagates to the caller. -/
theorem claim10_google_open_error_propagates :
    transcribeChunkGoogle false (.recognized []) = Except.error () := rfl

/-- C10 (amended): `transcribe_chunk_whisper` is total — any failure inside
its `try` block yields `""` — and `transcribe_chunk_google` is total once
the audio file has been opened; only an error opening the chunk file
escapes.  In every caught case the failure returns `""`, indistinguishable
from a successfully transcribed silent chunk. -/
theorem claim10_amended_totality :
    (transcribeChunkWhisper true (Except.error ()) = []) ∧
    (∀ g : GoogleOutcome, ∃ t, transcribeChunkGoogle true g = Except.ok t) ∧
    (transcribeChunkWhisper true (Except.error ()) =
      transcribeChunkWhisper true (Except.ok [])) ∧
    (transcribeChunkGoogle true .requestError =
      transcribeChunkGoogle true .unknownValue) ∧
    (transcribeChunkGoogle true .requestError = Except.ok []) := by
  refine ⟨rfl, ?_, rfl, rfl, rfl⟩
  intro g
  cases g <;> exact ⟨_, rfl⟩

/-! ### C6 -/

/-- The chunk-index bookkeeping invariant: the emitted chunks carry the
filename indices `0, 1, …, total_chunks - 1` in order. -/
def idxInv (st : SplitState) : Prop :=
  st.2.2.map Emitted.idx = List.range st.2.1

theorem innerStep_idxInv (len limit : ℕ) (ok : ℕ → Bool) :
    ∀ st j, idxInv st → idxInv (innerStep len limit ok st j) := by
  rintro ⟨att, tot, acc⟩ j h
  unfold innerStep
  dsimp only
  split
  · exact h
  · split
    · unfold idxInv at h ⊢
      simp only [List.map_append, List.map_cons, List.map_nil] at h ⊢
      rw [h, List.range_succ]
    · exact h

theorem processOne_idxInv (limit : ℕ) (ok : ℕ → Bool) :
    ∀ st len, idxInv st → idxInv (processOne limit ok st len) := by
  rintro ⟨att, tot, acc⟩ len h
  unfold processOne
  split
  · exact foldl_invariant _ idxInv (innerStep_idxInv len limit ok) _ _ h
  · split
    · exact h
    · dsimp only
      split
      · unfold idxInv at h ⊢
        simp only [List.map_append, List.map_cons, List.map_nil] at h ⊢
        rw [h, List.range_succ]
      · exact h

/-- C6: the filename indices of the emitted chunks (`chunk_{k}.wav`) are the
contiguous integers `0, 1, …` in output order, for every input, every
configuration and every pattern of export failures: `total_chunks` is
incremented only on successful exports (youtube_transcriber.py:118-153), so
dropped segments and failed exports never consume an index. -/
theorem claim6_contiguous_indices (audioLen : ℕ) (silence : List ℕ)
    (limit : ℕ) (ok : ℕ → Bool) :
    (splitAudioIntelligently audioLen silence limit ok).map Emitted.idx =
      List.range (splitAudioIntelligently audioLen silence limit ok).length := by
  have h := foldl_invariant (processOne limit ok) idxInv
    (processOne_idxInv limit ok) (segmentsForProcessing audioLen silence)
    (0, 0, []) (by unfold idxInv; rfl)
  unfold splitAudioIntelligently
  unfold idxInv at h
  have hlen : ((((segmentsForProcessing audioLen silence).foldl
      (processOne limit ok) (0, 0, [])).2.2).map Emitted.idx).length =
      (List.range (((segmentsForProcessing audioLen silence).foldl
        (processOne limit ok) (0, 0, [])).2.1)).length := by rw [h]
  simp only [List.length_map, List.length_range] at hlen
  rw [h, hlen]

/-! ### C2 (amended) -/

/-- Durations of emitted chunks: positive always, and at least 100 ms for
chunks that did not come from the time-splitting branch. -/
def durInv (st : SplitState) : Prop :=
  ∀ c ∈ st.2.2, 0 < c.dur ∧ (c.fromSplit = false → 100 ≤ c.dur)

theorem innerStep_durInv (len limit : ℕ) (ok : ℕ → Bool) :
    ∀ st j, durInv st → durInv (innerStep len limit ok st j) := by
  rintro ⟨att, tot, acc⟩ j h
  unfold innerStep
  dsimp only
  split
  · exact h
  · rename_i hlt
    split
    · intro c hc
      rcases List.mem_append.mp hc with hc | hc
      · exact h c hc
      · rcases List.mem_singleton.mp hc with rfl
        refine ⟨?_, ?_⟩
        · show 0 < (subBounds len limit j).2 - (subBounds len limit j).1
          omega
        · intro hfalse
          simp only [Emitted.fromSplit] at hfalse
          cases hfalse
    · exact h

theorem processOne_durInv (limit : ℕ) (ok : ℕ → Bool) :
    ∀ st len, durInv st → durInv (processOne limit ok st len) := by
  rintro ⟨att, tot, acc⟩ len h
  unfold processOne
  split
  · exact foldl_invariant _ durInv (innerStep_durInv len limit ok) _ _ h
  · split
    · exact h
    · rename_i hns hlen
      dsimp only
      split
      · intro c hc
        rcases List.mem_append.mp hc with hc | hc
        · exact h c hc
        · rcases List.mem_singleton.mp hc with rfl
          refine ⟨?_, fun _ => ?_⟩
          · show 0 < len
            omega
          · show 100 ≤ len
            omega
      · exact h

/-- C2 (amended): the 100 ms minimum-duration drop applies only to segments
that were not time-split (youtube_transcriber.py:143 guards the
non-splitting branch alone); sub-chunks of an over-long segment are exported
whenever they are non-empty, regardless of the minimum.  Hence every emitted
chunk has positive duration, and every chunk that did not come from the
time-splitting branch has duration ≥ 100 ms. -/
theorem claim2_amended_min_duration (audioLen : ℕ) (silence : List ℕ)
    (limit : ℕ) (ok : ℕ → Bool) (c : Emitted)
    (hc : c ∈ splitAudioIntelligently audioLen silence limit ok) :
    0 < c.dur ∧ (c.fromSplit = false → 100 ≤ c.dur) := by
  have h := foldl_invariant (processOne limit ok) durInv
    (processOne_durInv limit ok) (segmentsForProcessing audioLen silence)
    (0, 0, []) (by intro c hc; cases hc)
  exact h c hc

/-- C2 witness: the amended statement at a concrete run — a 500 ms segment
exported directly (duration ≥ 100) next to 50 ms time-split sub-chunks. -/
theorem claim2_amended_witness :
    0 < (Emitted.mk 0 50 true).dur ∧
    ((Emitted.mk 0 50 true).fromSplit = false →
      100 ≤ (Emitted.mk 0 50 true).dur) :=
  claim2_amended_min_duration 0 [150] 50 (fun _ => true) ⟨0, 50, true⟩
    (by decide)

/-! ### String lemmas for transcript assembly -/

theorem pyStrip_dropWhile_fix (l : List Char) :
    (pyStrip l).dropWhile Char.isWhitespace = pyStrip l := by
  unfold pyStrip
  set X := List.dropWhile Char.isWhitespace l with hX
  have hfixX : X.dropWhile Char.isWhitespace = X :=
    List.dropWhile_idempotent _ _
  have hpre : List.rdropWhile Char.isWhitespace X <+: X :=
    List.rdropWhile_prefix _ _
  rw [List.dropWhile_eq_self_iff]
  intro hl
  have hlen : 0 < X.length := lt_of_lt_of_le hl hpre.length_le
  have hget := hpre.getElem (n := 0) hl
  have hX0 := List.dropWhile_eq_self_iff.mp hfixX hlen
  simpa [List.get_eq_getElem, hget] using hX0

theorem pyStrip_rdropWhile_fix (l : List Char) :
    (pyStrip l).rdropWhile Char.isWhitespace = pyStrip l := by
  unfold pyStrip
  exact List.rdropWhile_idempotent _ _

theorem pyStrip_eq_self_of (l : List Char)
    (h1 : l.dropWhile Char.isWhitespace = l)
    (h2 : l.rdropWhile Char.isWhitespace = l) : pyStrip l = l := by
  unfold pyStrip
  rw [h1, h2]

theorem pyStrip_idem (l : List Char) : pyStrip (pyStrip l) = pyStrip l :=
  pyStrip_eq_self_of _ (pyStrip_dropWhile_fix l) (pyStrip_rdropWhile_fix l)

theorem joinSpace_single (t : List Char) : joinSpace [t] = t := by
  simp [joinSpace, List.intercalate]

theorem joinSpace_cons_cons (t u : List Char) (ts : List (List Char)) :
    joinSpace (t :: u :: ts) = t ++ ' ' :: joinSpace (u :: ts) := by
  simp [joinSpace, List.intercalate, List.intersperse]

/-- A space-separated join of nonempty stripped strings is itself stripped
(and nonempty). -/
theorem joinSpace_fix (parts : List (List Char))
    (hne : ∀ t ∈ parts, t ≠ [])
    (h1 : ∀ t ∈ parts, t.dropWhile Char.isWhitespace = t)
    (h2 : ∀ t ∈ parts, t.rdropWhile Char.isWhitespace = t) :
    (joinSpace parts).dropWhile Char.isWhitespace = joinSpace parts ∧
    (joinSpace parts).rdropWhile Char.isWhitespace = joinSpace parts ∧
    (parts ≠ [] → joinSpace parts ≠ []) := by
  induction parts with
  | nil => exact ⟨rfl, rfl, fun h => absurd rfl h⟩
  | cons t rest ih =>
      rcases rest with _ | ⟨u, ts⟩
      · rw [joinSpace_single]
        exact ⟨h1 t (by simp), h2 t (by simp), fun _ => hne t (by simp)⟩
      · have hne2 : ∀ x ∈ u :: ts, x ≠ [] := fun x hx => hne x (by simp [hx])
        have h12 : ∀ x ∈ u :: ts, x.dropWhile Char.isWhitespace = x :=
          fun x hx => h1 x (by simp [hx])
        have h22 : ∀ x ∈ u :: ts, x.rdropWhile Char.isWhitespace = x :=
          fun x hx => h2 x (by simp [hx])
        obtain ⟨ihd, ihr, ihn⟩ := ih hne2 h12 h22
        have hJne : joinSpace (u :: ts) ≠ [] := ihn (by simp)
        have htne : t ≠ [] := hne t (by simp)
        have htlen : 0 < t.length := List.length_pos.mpr htne
        rw [joinSpace_cons_cons]
        refine ⟨?_, ?_, fun _ => by simp [htne]⟩
        · rw [List.dropWhile_eq_self_iff]
          intro hl
          have hget : (t ++ ' ' :: joinSpace (u :: ts)).get ⟨0, hl⟩ =
              t.get ⟨0, htlen⟩ := by
            simp [List.get_eq_getElem, List.getElem_append_left htlen]
          rw [hget]
          exact List.dropWhile_eq_self_iff.mp (h1 t (by simp)) htlen
        · rw [List.rdropWhile_eq_self_iff]
          intro hl
          have hcne : (' ' :: joinSpace (u :: ts)) ≠ [] := by simp
          have hlast : (t ++ ' ' :: joinSpace (u :: ts)).getLast hl =
              (joinSpace (u :: ts)).getLast hJne := by
            rw [List.getLast_append' t _ hcne, List.getLast_cons hJne]
          rw [hlast]
          exact List.rdropWhile_eq_self_iff.mp ihr hJne

/-! ### C4 and C7: the transcription loop and transcript assembly -/

theorem transcribeChunkWhisper_ok (t : List Char) :
    transcribeChunkWhisper true (Except.ok t) = pyStrip t := rfl

theorem transcribeChunkWhisper_err (e : Unit) :
    transcribeChunkWhisper true (Except.error e) = [] := rfl

/-- The per-chunk append rule of the loop, as a `filterMap`: exactly the
non-empty texts survive, in order. -/
theorem mainParts_eq_filterMap (results : List (Except Unit (List Char))) :
    mainParts results = results.filterMap (fun r =>
      let text := transcribeChunkWhisper true r
      if text.isEmpty then none else some text) := by
  unfold mainParts
  suffices h : ∀ (l : List (Except Unit (List Char))) (acc : List (List Char)),
      l.foldl (fun parts r =>
        let text := transcribeChunkWhisper true r
        if text.isEmpty then parts else parts ++ [text]) acc =
      acc ++ l.filterMap (fun r =>
        let text := transcribeChunkWhisper true r
        if text.isEmpty then none else some text) by
    rw [h results []]
    rfl
  intro l
  induction l with
  | nil => intro acc; simp
  | cons x xs ih =>
      intro acc
      rw [List.foldl_cons, List.filterMap_cons]
      dsimp only
      cases hx : (transcribeChunkWhisper true x).isEmpty
      · simp only [Bool.false_eq_true, if_false]
        rw [ih]
        simp
      · simp only [if_true]
        rw [ih]

/-- `filterMap` of the kept texts is `filter` of all the texts. -/
theorem mainTexts_filter (l : List (Except Unit (List Char))) :
    l.filterMap (fun r =>
      let text := transcribeChunkWhisper true r
      if text.isEmpty then none else some text) =
    (l.map (transcribeChunkWhisper true)).filter (fun t => !t.isEmpty) := by
  induction l with
  | nil => rfl
  | cons x xs ih =>
      rw [List.filterMap_cons, List.map_cons, List.filter_cons]
      dsimp only
      cases hx : (transcribeChunkWhisper true x).isEmpty
      · simp only [Bool.false_eq_true, if_false, Bool.not_false, if_true]
        rw [ih]
      · simp only [if_true, Bool.not_true, Bool.false_eq_true, if_false]
        rw [ih]

/-- C4: a backend failure on one chunk is isolated: the run still completes,
the final transcript is exactly the transcript of the same run without the
failed chunk (every other chunk's text kept, in order), and the loop records
the failed chunk as not contributing (the
"resulted in empty or failed transcription" branch,
youtube_transcriber.py:274-275). -/
theorem claim4_failed_chunk_isolated (l₁ l₂ : List (Except Unit (List Char))) :
    mainParts (l₁ ++ Except.error () :: l₂) = mainParts l₁ ++ mainParts l₂ ∧
    mainFinal (l₁ ++ Except.error () :: l₂) = mainFinal (l₁ ++ l₂) ∧
    (mainStatuses (l₁ ++ Except.error () :: l₂)).getD l₁.length true =
      false := by
  refine ⟨?_, ?_, ?_⟩
  · rw [mainParts_eq_filterMap, mainParts_eq_filterMap,
      mainParts_eq_filterMap, List.filterMap_append, List.filterMap_cons]
    rfl
  · unfold mainFinal
    rw [mainParts_eq_filterMap, mainParts_eq_filterMap,
      List.filterMap_append, List.filterMap_cons, List.filterMap_append]
    rfl
  · unfold mainStatuses
    rw [List.map_append, List.getD_append_right _ _ _ _ (by simp),
      List.map_cons]
    simp [transcribeChunkWhisper]

/-- Texts appearing in `mainParts` are nonempty outputs of `pyStrip`. -/
theorem mainParts_mem (results : List (Except Unit (List Char))) :
    ∀ t ∈ mainParts results, t ≠ [] ∧
      t.dropWhile Char.isWhitespace = t ∧
      t.rdropWhile Char.isWhitespace = t := by
  intro t ht
  rw [mainParts_eq_filterMap] at ht
  obtain ⟨r, _, hr⟩ := List.mem_filterMap.mp ht
  dsimp only at hr
  cases hx : (transcribeChunkWhisper true r).isEmpty
  · rw [hx] at hr
    simp only [Bool.false_eq_true, if_false] at hr
    obtain rfl := Option.some_injective _ hr
    have hne : transcribeChunkWhisper true r ≠ [] := by
      intro hnil
      rw [hnil] at hx
      cases hx
    rcases r with e | t0
    · exact absurd (transcribeChunkWhisper_err e) hne
    · rw [transcribeChunkWhisper_ok]
      rw [transcribeChunkWhisper_ok] at hne
      exact ⟨hne, pyStrip_dropWhile_fix t0, pyStrip_rdropWhile_fix t0⟩
  · rw [hx] at hr
    simp only [if_true] at hr
    cases hr

/-- C7: `final_text = " ".join(full_transcript).strip()` equals the
space-separated join of exactly the non-empty per-chunk texts, in chunk
order; empty or failed chunks contribute nothing (the outer `.strip()` is a
no-op because each appended text is already stripped and non-empty). -/
theorem claim7_transcript_join (results : List (Except Unit (List Char))) :
    mainFinal results =
      joinSpace ((results.map (transcribeChunkWhisper true)).filter
        (fun t => !t.isEmpty)) := by
  have hfix := mainParts_mem results
  have hstrip : pyStrip (joinSpace (mainParts results)) =
      joinSpace (mainParts results) := by
    rcases hmp : mainParts results with _ | ⟨t, ts⟩
    · rfl
    · rw [← hmp]
      obtain ⟨hd, hr, _⟩ := joinSpace_fix (mainParts results)
        (fun t ht => (hfix t ht).1) (fun t ht => (hfix t ht).2.1)
        (fun t ht => (hfix t ht).2.2)
      exact pyStrip_eq_self_of _ hd hr
  unfold mainFinal
  rw [hstrip, mainParts_eq_filterMap, mainTexts_filter]

/-! ### C5: correctness facts about the binary64 model -/

theorem bitsF_zero_arg (fuel : ℕ) : bitsF fuel 0 = 0 := by
  cases fuel with
  | zero => rfl
  | succ f => simp [bitsF]

theorem bitsF_spec :
    ∀ fuel n : ℕ, n ≤ fuel → 1 ≤ n →
      2 ^ (bitsF fuel n - 1) ≤ n ∧ n < 2 ^ bitsF fuel n := by
  intro fuel
  induction fuel with
  | zero => intro n h1 h2; omega
  | succ f ih =>
      intro n hle h1
      rw [bitsF, if_neg (by omega)]
      rcases Nat.lt_or_ge n 2 with h2 | h2
      · have hn1 : n = 1 := by omega
        subst hn1
        norm_num [bitsF_zero_arg]
      · have hn2 : 1 ≤ n / 2 := by omega
        have hle2 : n / 2 ≤ f := by omega
        obtain ⟨hlo, hhi⟩ := ih (n / 2) hle2 hn2
        set b := bitsF f (n / 2) with hb
        have hb1 : 1 ≤ b := by
          by_contra hb0
          push_neg at hb0
          have : b = 0 := by omega
          rw [this] at hhi
          simp at hhi
          omega
        constructor
        · have hsp : 2 ^ (b + 1 - 1) = 2 * 2 ^ (b - 1) := by
            rw [← pow_succ']
            congr 1
            omega
          rw [hsp]
          omega
        · have hsp : 2 ^ (b + 1) = 2 * 2 ^ b := by
            rw [pow_succ]
            ring
          rw [hsp]
          omega

theorem nbits_spec (n : ℕ) (h : 1 ≤ n) :
    2 ^ (nbits n - 1) ≤ n ∧ n < 2 ^ nbits n :=
  bitsF_spec n n le_rfl h

theorem nbits_pos (n : ℕ) (h : 1 ≤ n) : 1 ≤ nbits n := by
  by_contra h0
  push_neg at h0
  obtain ⟨_, hhi⟩ := nbits_spec n h
  have : nbits n = 0 := by omega
  rw [this] at hhi
  simp at hhi
  omega

theorem nbits_unique (n k : ℕ) (hk : 1 ≤ k) (hlo : 2 ^ (k - 1) ≤ n)
    (hhi : n < 2 ^ k) : nbits n = k := by
  have hn1 : 1 ≤ n := le_trans (Nat.one_le_two_pow) hlo
  obtain ⟨hlo2, hhi2⟩ := nbits_spec n hn1
  have hb1 : 1 ≤ nbits n := nbits_pos n hn1
  have h1 : nbits n - 1 < k := by
    have := lt_of_le_of_lt hlo2 hhi
    exact (Nat.pow_lt_pow_iff_right (by norm_num)).mp this
  have h2 : k - 1 < nbits n := by
    have := lt_of_le_of_lt hlo hhi2
    exact (Nat.pow_lt_pow_iff_right (by norm_num)).mp this
  omega

theorem nbits_le_of_lt_pow (n k : ℕ) (h : n < 2 ^ k) : nbits n ≤ k := by
  rcases Nat.eq_zero_or_pos n with rfl | hn
  · rw [nbits, bitsF_zero_arg]
    omega
  · obtain ⟨hlo, _⟩ := nbits_spec n hn
    by_contra hgt
    push_neg at hgt
    have hk : k ≤ nbits n - 1 := by omega
    have : 2 ^ k ≤ 2 ^ (nbits n - 1) := Nat.pow_le_pow_right (by norm_num) hk
    omega

theorem rho_bounds (N D : ℕ) (hD : 0 < D) :
    (N : ℚ) / D - 1 / 2 ≤ rho N D ∧ (rho N D : ℚ) ≤ N / D + 1 / 2 := by
  have hid : (D : ℚ) * (N / D : ℕ) + (N % D : ℕ) = N := by
    exact_mod_cast congrArg (Nat.cast : ℕ → ℚ) (Nat.div_add_mod N D)
  have hDq : (0 : ℚ) < D := by exact_mod_cast hD
  have hNdiv : (N : ℚ) / D = (N / D : ℕ) + (N % D : ℕ) / D := by
    field_simp
    linarith [hid]
  have hr0 : (0 : ℚ) ≤ (N % D : ℕ) := by positivity
  have hrD : ((N % D : ℕ) : ℚ) < D := by
    exact_mod_cast Nat.mod_lt N hD
  have hr0d : (0 : ℚ) ≤ ((N % D : ℕ) : ℚ) / D := by positivity
  unfold rho
  dsimp only
  split
  · rename_i hcase
    have hc : ((N % D : ℕ) : ℚ) / D ≤ 1 / 2 := by
      rw [div_le_div_iff₀ hDq (by norm_num)]
      have : (2 : ℚ) * (N % D : ℕ) ≤ D := by
        exact_mod_cast le_of_lt hcase
      linarith
    constructor
    · rw [hNdiv]; linarith
    · rw [hNdiv]; linarith
  · split
    · rename_i hc1 hcase
      have hc : (1 : ℚ) / 2 ≤ ((N % D : ℕ) : ℚ) / D := by
        rw [div_le_div_iff₀ (by norm_num) hDq]
        have : (D : ℚ) ≤ 2 * (N % D : ℕ) := by
          exact_mod_cast le_of_lt hcase
        linarith
      have hlt1 : ((N % D : ℕ) : ℚ) / D < 1 := by
        rw [div_lt_one hDq]
        exact hrD
      constructor
      · rw [hNdiv]
        push_cast
        linarith
      · rw [hNdiv]
        push_cast
        linarith
    · rename_i hc1 hc2
      have heq : (2 : ℚ) * (N % D : ℕ) = D := by
        have h1 : 2 * (N % D) = D := by omega
        exact_mod_cast congrArg (Nat.cast : ℕ → ℚ) h1
      have hc : ((N % D : ℕ) : ℚ) / D = 1 / 2 := by
        rw [div_eq_div_iff (ne_of_gt hDq) (by norm_num)]
        linarith
      split
      · constructor
        · rw [hNdiv]; linarith
        · rw [hNdiv]; linarith
      · constructor
        · rw [hNdiv]
          push_cast
          linarith
        · rw [hNdiv]
          push_cast
          linarith

theorem rho_exact (N D : ℕ) (hD : 0 < D) (hdvd : D ∣ N) :
    (rho N D : ℚ) = (N : ℚ) / D := by
  have hmod : N % D = 0 := Nat.mod_eq_zero_of_dvd hdvd
  unfold rho
  dsimp only
  rw [hmod]
  rw [if_pos (by omega)]
  obtain ⟨c, rfl⟩ := hdvd
  rw [Nat.mul_div_cancel_left c hD]
  have hDq : (D : ℚ) ≠ 0 := by positivity
  push_cast
  field_simp

theorem dval_nonneg (x : ℕ × ℤ) : 0 ≤ dval x := by
  unfold dval
  positivity

/-- The computed binary64 quotient is within half an ulp, hence within
relative error `2 ^ (-53)`, of the exact quotient: in multiplied form,
`a * (1 - u) ≤ dval (divRound a b) * b ≤ a * (1 + u)`. -/
theorem divRound_bounds (a b : ℕ) (hb : 0 < b) (hba : b ≤ a) :
    (a : ℚ) * (1 - 1 / 2 ^ 53) ≤ dval (divRound a b) * b ∧
    dval (divRound a b) * b ≤ (a : ℚ) * (1 + 1 / 2 ^ 53) := by
  have ha : 0 < a := lt_of_lt_of_le hb hba
  have hq1 : 1 ≤ a / b := (Nat.one_le_div_iff hb).mpr hba
  set E := nbits (a / b) - 1 with hE
  set N := a * 2 ^ 52 with hN
  set D := b * 2 ^ E with hD
  have hDpos : 0 < D := by positivity
  have hEb : 2 ^ E ≤ a / b := (nbits_spec (a / b) hq1).1
  have hDa : D ≤ a := by
    calc D = b * 2 ^ E := rfl
    _ ≤ b * (a / b) := Nat.mul_le_mul_left b hEb
    _ ≤ a := by
        rw [mul_comm]
        exact Nat.div_mul_le_self a b
  obtain ⟨hlo, hhi⟩ := rho_bounds N D hDpos
  have hdv : dval (divRound a b) = (rho N D : ℚ) * 2 ^ ((E : ℤ) - 52) := by
    simp [divRound, dval, hE, hN, hD]
  have hc : (0 : ℚ) < (b : ℚ) * 2 ^ ((E : ℤ) - 52) := by positivity
  have hexact : ((N : ℚ) / D) * ((b : ℚ) * 2 ^ ((E : ℤ) - 52)) = a := by
    have hz : ((2 : ℚ)) ^ ((E : ℤ) - 52) = 2 ^ (E : ℤ) / 2 ^ (52 : ℤ) :=
      zpow_sub₀ (by norm_num) E 52
    have hE2 : ((2 : ℚ)) ^ ((E : ℤ)) = ((2 ^ E : ℕ) : ℚ) := by
      rw [zpow_natCast]
      push_cast
      rfl
    have h52 : ((2 : ℚ)) ^ ((52 : ℤ)) = ((2 ^ 52 : ℕ) : ℚ) := by norm_num
    rw [hz, hE2, h52, hN, hD]
    have hb0 : ((b : ℚ)) ≠ 0 := by positivity
    have h2E : (((2 ^ E : ℕ)) : ℚ) ≠ 0 := by positivity
    have h252 : (((2 ^ 52 : ℕ)) : ℚ) ≠ 0 := by positivity
    push_cast
    field_simp
  have hhalf : (1 : ℚ) / 2 * ((b : ℚ) * 2 ^ ((E : ℤ) - 52)) ≤ a / 2 ^ 53 := by
    have hz : ((2 : ℚ)) ^ ((E : ℤ) - 52) = 2 ^ (E : ℤ) / 2 ^ (52 : ℤ) :=
      zpow_sub₀ (by norm_num) E 52
    have hE2 : ((2 : ℚ)) ^ ((E : ℤ)) = ((2 ^ E : ℕ) : ℚ) := by
      rw [zpow_natCast]
      push_cast
      rfl
    have step : (1 : ℚ) / 2 * ((b : ℚ) * 2 ^ ((E : ℤ) - 52)) =
        ((b : ℚ) * ((2 ^ E : ℕ) : ℚ)) / 2 ^ 53 := by
      rw [hz, hE2]
      norm_num
      ring
    rw [step, div_le_div_iff_of_pos_right (by positivity)]
    exact_mod_cast hDa
  constructor
  · rw [hdv]
    have h1 : ((N : ℚ) / D - 1 / 2) * ((b : ℚ) * 2 ^ ((E : ℤ) - 52)) ≤
        (rho N D : ℚ) * 2 ^ ((E : ℤ) - 52) * b := by
      have := mul_le_mul_of_nonneg_right hlo (le_of_lt hc)
      calc ((N : ℚ) / D - 1 / 2) * ((b : ℚ) * 2 ^ ((E : ℤ) - 52)) ≤
          (rho N D : ℚ) * ((b : ℚ) * 2 ^ ((E : ℤ) - 52)) := this
      _ = (rho N D : ℚ) * 2 ^ ((E : ℤ) - 52) * b := by ring
    have h2 : ((N : ℚ) / D - 1 / 2) * ((b : ℚ) * 2 ^ ((E : ℤ) - 52)) =
        a - 1 / 2 * ((b : ℚ) * 2 ^ ((E : ℤ) - 52)) := by
      rw [sub_mul, hexact]
    rw [h2] at h1
    have : (a : ℚ) * (1 - 1 / 2 ^ 53) ≤
        a - 1 / 2 * ((b : ℚ) * 2 ^ ((E : ℤ) - 52)) := by
      have haq : (0 : ℚ) ≤ a := by positivity
      nlinarith [hhalf]
    linarith
  · rw [hdv]
    have h1 : (rho N D : ℚ) * 2 ^ ((E : ℤ) - 52) * b ≤
        ((N : ℚ) / D + 1 / 2) * ((b : ℚ) * 2 ^ ((E : ℤ) - 52)) := by
      have := mul_le_mul_of_nonneg_right hhi (le_of_lt hc)
      calc (rho N D : ℚ) * 2 ^ ((E : ℤ) - 52) * b =
          (rho N D : ℚ) * ((b : ℚ) * 2 ^ ((E : ℤ) - 52)) := by ring
      _ ≤ ((N : ℚ) / D + 1 / 2) * ((b : ℚ) * 2 ^ ((E : ℤ) - 52)) := this
    have h2 : ((N : ℚ) / D + 1 / 2) * ((b : ℚ) * 2 ^ ((E : ℤ) - 52)) =
        a + 1 / 2 * ((b : ℚ) * 2 ^ ((E : ℤ) - 52)) := by
      rw [add_mul, hexact]
    rw [h2] at h1
    have : (a : ℚ) + 1 / 2 * ((b : ℚ) * 2 ^ ((E : ℤ) - 52)) ≤
        a * (1 + 1 / 2 ^ 53) := by
      have haq : (0 : ℚ) ≤ a := by positivity
      nlinarith [hhalf]
    linarith

/-- The computed binary64 product of `j` with the float `s` is within
relative error `2 ^ (-53)` of the exact product `j * dval s`. -/
theorem mulRound_bounds (j : ℕ) (s : ℕ × ℤ) :
    (j : ℚ) * dval s * (1 - 1 / 2 ^ 53) ≤ dval (mulRound j s) ∧
    dval (mulRound j s) ≤ (j : ℚ) * dval s * (1 + 1 / 2 ^ 53) := by
  have hjs : (j : ℚ) * dval s = ((j * s.1 : ℕ) : ℚ) * 2 ^ s.2 := by
    unfold dval
    push_cast
    ring
  have hjs0 : (0 : ℚ) ≤ (j : ℚ) * dval s := by
    have := dval_nonneg s
    positivity
  unfold mulRound
  dsimp only
  split
  · rename_i hk
    have hdv : dval (j * s.1, s.2) = (j : ℚ) * dval s := by
      rw [hjs]
      rfl
    rw [hdv]
    constructor
    · nlinarith [hjs0]
    · nlinarith [hjs0]
  · rename_i hk
    push_neg at hk
    set P := j * s.1 with hP
    set k := nbits P with hkdef
    have hP1 : 1 ≤ P := by
      by_contra hP0
      push_neg at hP0
      have : P = 0 := by omega
      rw [this] at hkdef
      rw [nbits, bitsF_zero_arg] at hkdef
      omega
    obtain ⟨hPlo, hPhi⟩ := nbits_spec P hP1
    have hdrop : k - 53 + 52 = k - 1 := by omega
    have hD : (0 : ℕ) < 2 ^ (k - 53) := by positivity
    obtain ⟨hlo, hhi⟩ := rho_bounds P (2 ^ (k - 53)) hD
    have hdv : dval (rho P (2 ^ (k - 53)), s.2 + (k - 53 : ℕ)) =
        (rho P (2 ^ (k - 53)) : ℚ) * 2 ^ (s.2 + (k - 53 : ℕ)) := rfl
    have hc : (0 : ℚ) < 2 ^ (s.2 + (k - 53 : ℕ)) := by positivity
    have hzsplit : ((2 : ℚ)) ^ (s.2 + (k - 53 : ℕ)) =
        2 ^ s.2 * ((2 ^ (k - 53) : ℕ) : ℚ) := by
      rw [zpow_add₀ (by norm_num)]
      congr 1
      rw [zpow_natCast]
      push_cast
      rfl
    have hexact : ((P : ℚ) / ((2 ^ (k - 53) : ℕ) : ℚ)) *
        (2 ^ (s.2 + (k - 53 : ℕ)) : ℚ) = (j : ℚ) * dval s := by
      rw [hjs, hzsplit]
      have hne : (((2 ^ (k - 53) : ℕ)) : ℚ) ≠ 0 := by positivity
      field_simp
      ring
    -- half an ulp is at most a 2^(-53) relative error, since 2^(k-1) ≤ P
    have hhalf : (1 : ℚ) / 2 * (2 ^ (s.2 + (k - 53 : ℕ)) : ℚ) ≤
        ((j : ℚ) * dval s) / 2 ^ 53 := by
      rw [hjs, hzsplit]
      have hPloq : ((2 : ℚ)) ^ (k - 1 : ℕ) ≤ (P : ℚ) := by
        exact_mod_cast hPlo
      have hsplit2 : ((2 : ℚ)) ^ (k - 1 : ℕ) =
          ((2 : ℚ)) ^ (k - 53 : ℕ) * 2 ^ (52 : ℕ) := by
        rw [← pow_add]
        congr 1
        omega
      have h2s : (0 : ℚ) < (2 : ℚ) ^ s.2 := by positivity
      have hkey : ((2 : ℚ)) ^ (k - 53 : ℕ) * 2 ^ (52 : ℕ) ≤ (P : ℚ) := by
        rw [← hsplit2]
        exact hPloq
      have hcast : (((2 ^ (k - 53) : ℕ)) : ℚ) = ((2 : ℚ)) ^ (k - 53 : ℕ) := by
        push_cast
        rfl
      rw [hcast]
      have hmul := mul_le_mul_of_nonneg_left hkey (le_of_lt h2s)
      nlinarith [hmul]
    rw [hdv]
    constructor
    · have h1 := mul_le_mul_of_nonneg_right hlo (le_of_lt hc)
      rw [sub_mul, hexact] at h1
      nlinarith [hhalf, h1]
    · have h1 := mul_le_mul_of_nonneg_right hhi (le_of_lt hc)
      rw [add_mul, hexact] at h1
      nlinarith [hhalf, h1]

/-- An exactly representable quotient is computed exactly: if `b ∣ a` and the
quotient is below `2 ^ 53`, the binary64 division returns it. -/
theorem divRound_exact (a b : ℕ) (hb : 0 < b) (hdvd : b ∣ a)
    (hlt : a / b < 2 ^ 53) : dval (divRound a b) = ((a / b : ℕ) : ℚ) := by
  obtain ⟨c, rfl⟩ := hdvd
  rw [Nat.mul_div_cancel_left c hb] at hlt ⊢
  set E := nbits (b * c / b) - 1 with hE
  have hcdiv : b * c / b = c := Nat.mul_div_cancel_left c hb
  have hEle : E ≤ 52 := by
    have : nbits (b * c / b) ≤ 53 := by
      rw [hcdiv]
      exact nbits_le_of_lt_pow c 53 hlt
    omega
  have hdvd2 : b * 2 ^ E ∣ b * c * 2 ^ 52 := by
    refine ⟨c * 2 ^ (52 - E), ?_⟩
    have h52 : (2 : ℕ) ^ 52 = 2 ^ E * 2 ^ (52 - E) := by
      rw [← pow_add]
      congr 1
      omega
    rw [h52]
    ring
  have hDpos : 0 < b * 2 ^ E := by positivity
  have hrho := rho_exact (b * c * 2 ^ 52) (b * 2 ^ E) hDpos hdvd2
  have hdv : dval (divRound (b * c) b) =
      (rho (b * c * 2 ^ 52) (b * 2 ^ E) : ℚ) * 2 ^ ((E : ℤ) - 52) := by
    simp [divRound, dval, hE]
  rw [hdv, hrho]
  have hz : ((2 : ℚ)) ^ ((E : ℤ) - 52) = ((2 ^ E : ℕ) : ℚ) / ((2 ^ 52 : ℕ) : ℚ) := by
    rw [zpow_sub₀ (by norm_num)]
    congr 1
    · rw [zpow_natCast]; push_cast; rfl
    · norm_num
  rw [hz]
  have hb0 : ((b : ℚ)) ≠ 0 := by positivity
  have h2E : (((2 ^ E : ℕ)) : ℚ) ≠ 0 := by positivity
  have h252 : (((2 ^ 52 : ℕ)) : ℚ) ≠ 0 := by positivity
  push_cast
  field_simp
  ring

/-- An exactly representable product is computed exactly: if `j * dval s` is
a natural number below `2 ^ 53`, the binary64 product returns it. -/
theorem mulRound_exact (j : ℕ) (s : ℕ × ℤ) (v : ℕ)
    (hv : (j : ℚ) * dval s = v) (hlt : v < 2 ^ 53) :
    dval (mulRound j s) = v := by
  have hjs : ((j * s.1 : ℕ) : ℚ) * 2 ^ s.2 = v := by
    rw [← hv]
    unfold dval
    push_cast
    ring
  unfold mulRound
  dsimp only
  split
  · rename_i hk
    unfold dval
    exact hjs
  · rename_i hk
    push_neg at hk
    set P := j * s.1 with hP
    set k := nbits P with hkdef
    have hP1 : 1 ≤ P := by
      by_contra hP0
      push_neg at hP0
      have hz : P = 0 := by omega
      rw [hz] at hkdef
      rw [nbits, bitsF_zero_arg] at hkdef
      omega
    obtain ⟨hPlo, hPhi⟩ := nbits_spec P hP1
    have hP53 : 2 ^ 53 ≤ P := by
      calc (2 : ℕ) ^ 53 ≤ 2 ^ (k - 1) := Nat.pow_le_pow_right (by norm_num) (by omega)
      _ ≤ P := hPlo
    have hs2neg : s.2 < 0 := by
      by_contra hpos
      push_neg at hpos
      have h1 : (1 : ℚ) ≤ 2 ^ s.2 := one_le_zpow₀ (by norm_num) hpos
      have h2 : ((P : ℕ) : ℚ) ≤ ((P : ℕ) : ℚ) * 2 ^ s.2 := by
        nlinarith [h1, (by positivity : (0:ℚ) ≤ ((P : ℕ) : ℚ))]
      rw [hjs] at h2
      have : (P : ℕ) ≤ v := by exact_mod_cast h2
      omega
    set t := (-s.2).toNat with ht
    have hs2 : s.2 = -(t : ℤ) := by omega
    have hPv : P = v * 2 ^ t := by
      have h1 : ((P : ℕ) : ℚ) = (v : ℚ) * 2 ^ (t : ℕ) := by
        have h2 : ((2 : ℚ)) ^ s.2 = ((2 : ℚ) ^ (t : ℕ))⁻¹ := by
          rw [hs2, zpow_neg, zpow_natCast]
        rw [h2] at hjs
        have h3 : ((2 : ℚ)) ^ (t : ℕ) ≠ 0 := by positivity
        field_simp at hjs
        linarith [hjs]
      exact_mod_cast h1
    have hv1 : 1 ≤ v := by
      by_contra hv0
      push_neg at hv0
      have : v = 0 := by omega
      rw [this] at hPv
      omega
    have hvbits : nbits v ≤ 53 := nbits_le_of_lt_pow v 53 hlt
    have hvpos : 1 ≤ nbits v := nbits_pos v hv1
    obtain ⟨hvlo, hvhi⟩ := nbits_spec v hv1
    have hkeq : k = nbits v + t := by
      rw [hkdef, hPv]
      refine nbits_unique (v * 2 ^ t) (nbits v + t) (by omega) ?_ ?_
      · have : (2 : ℕ) ^ (nbits v + t - 1) = 2 ^ (nbits v - 1) * 2 ^ t := by
          rw [← pow_add]
          congr 1
          omega
        rw [this]
        exact Nat.mul_le_mul_right _ hvlo
      · have : (2 : ℕ) ^ (nbits v + t) = 2 ^ (nbits v) * 2 ^ t := by
          rw [← pow_add]
        rw [this]
        have h2t : 0 < 2 ^ t := Nat.pos_pow_of_pos t (by norm_num)
        exact (Nat.mul_lt_mul_right h2t).mpr hvhi
    have hdropt : k - 53 ≤ t := by omega
    have hdvd2 : 2 ^ (k - 53) ∣ P := by
      rw [hPv]
      refine ⟨v * 2 ^ (t - (k - 53)), ?_⟩
      have : (2 : ℕ) ^ t = 2 ^ (k - 53) * 2 ^ (t - (k - 53)) := by
        rw [← pow_add]
        congr 1
        omega
      rw [this]
      ring
    have hD : (0 : ℕ) < 2 ^ (k - 53) := by positivity
    have hrho := rho_exact P (2 ^ (k - 53)) hD hdvd2
    have hdv : dval (rho P (2 ^ (k - 53)), s.2 + ((k - 53 : ℕ) : ℤ)) =
        (rho P (2 ^ (k - 53)) : ℚ) * 2 ^ (s.2 + ((k - 53 : ℕ) : ℤ)) := rfl
    rw [hdv, hrho]
    have hzsplit : ((2 : ℚ)) ^ (s.2 + ((k - 53 : ℕ) : ℤ)) =
        2 ^ s.2 * ((2 ^ (k - 53) : ℕ) : ℚ) := by
      rw [zpow_add₀ (by norm_num)]
      congr 1
      rw [zpow_natCast]
      push_cast
      rfl
    rw [hzsplit]
    have hne : (((2 ^ (k - 53) : ℕ)) : ℚ) ≠ 0 := by positivity
    calc (P : ℚ) / ((2 ^ (k - 53) : ℕ) : ℚ) *
          (2 ^ s.2 * ((2 ^ (k - 53) : ℕ) : ℚ)) =
        (P : ℚ) * 2 ^ s.2 := by field_simp; ring
    _ = v := hjs

/-- `int()` of a nonnegative float is the floor of its value. -/
theorem floorDy_eq (x : ℕ × ℤ) : ((floorDy x : ℕ) : ℤ) = ⌊dval x⌋ := by
  unfold floorDy dval
  split
  · rename_i hpos
    have hz : ((2 : ℚ)) ^ x.2 = ((2 ^ x.2.toNat : ℕ) : ℚ) := by
      rw [← Int.toNat_of_nonneg hpos, zpow_natCast]
      push_cast
      rw [Int.toNat_of_nonneg hpos]
    rw [hz]
    rw [show ((x.1 : ℚ)) * ((2 ^ x.2.toNat : ℕ) : ℚ) =
      ((x.1 * 2 ^ x.2.toNat : ℕ) : ℚ) by push_cast; ring]
    rw [Int.floor_natCast]
  · rename_i hneg
    push_neg at hneg
    have hz : ((2 : ℚ)) ^ x.2 = (((2 ^ (-x.2).toNat : ℕ) : ℚ))⁻¹ := by
      have h1 : ((2 : ℚ)) ^ x.2 = ((2 : ℚ) ^ ((-x.2).toNat : ℕ))⁻¹ := by
        rw [← zpow_natCast (2 : ℚ) ((-x.2).toNat), ← zpow_neg]
        congr 1
        omega
      rw [h1]
      congr 1
      push_cast
      rfl
    rw [hz, ← div_eq_mul_inv]
    have hfl : ⌊(x.1 : ℚ) / ((2 ^ (-x.2).toNat : ℕ) : ℚ)⌋₊ =
        x.1 / 2 ^ (-x.2).toNat := by
      rw [Nat.floor_div_nat ((x.1 : ℚ)) (2 ^ (-x.2).toNat), Nat.floor_natCast]
    rw [← Int.natCast_floor_eq_floor (by positivity), hfl]

/-- Arithmetic facts about the ceiling division `num_sub_chunks`:
it is the least number of equal parts under the length limit. -/
theorem numSub_facts (len limit : ℕ) (hlim : 0 < limit) (hlen : limit < len) :
    1 ≤ numSub len limit ∧ numSub len limit ≤ len ∧
    len ≤ numSub len limit * limit ∧
    numSub len limit * limit ≤ len + limit - 1 := by
  have hid := Nat.div_add_mod (len + limit - 1) limit
  have hr : (len + limit - 1) % limit < limit := Nat.mod_lt _ hlim
  have hq1 : 1 ≤ numSub len limit :=
    Nat.div_pos (by omega) hlim
  have hcomm : numSub len limit * limit = limit * ((len + limit - 1) / limit) := by
    rw [mul_comm]
    rfl
  have hup : numSub len limit * limit ≤ len + limit - 1 := by
    rw [hcomm]
    omega
  have hlow : len ≤ numSub len limit * limit := by
    rw [hcomm]
    omega
  refine ⟨hq1, ?_, hlow, hup⟩
  -- numSub ≤ len, because numSub * limit ≤ len + limit - 1 ≤ len * limit
  have hll : len + limit - 1 ≤ len * limit := by
    rcases Nat.lt_or_ge limit 2 with h2 | h2
    · have h1 : limit = 1 := by omega
      subst h1
      omega
    · have h3 : 2 * len ≤ limit * len := Nat.mul_le_mul_right len h2
      have h4 : len * limit = limit * len := mul_comm _ _
      omega
  have h5 : numSub len limit * limit ≤ len * limit := by omega
  exact Nat.le_of_mul_le_mul_right h5 hlim

set_option maxHeartbeats 2000000 in
/-- The heart of the amended C5: for segments of realistic length
(`≤ 2 ^ 24` ms, about 4.6 hours) every time-split sub-chunk respects the
length limit even in float arithmetic. -/
theorem subBounds_le (len limit j : ℕ) (hlim : 0 < limit)
    (hlen : limit < len) (hsize : len ≤ 2 ^ 24) (hj : j < numSub len limit) :
    (subBounds len limit j).2 - (subBounds len limit j).1 ≤ limit := by
  obtain ⟨hn1, hnlen, hcov, htight⟩ := numSub_facts len limit hlim hlen
  set n := numSub len limit with hn
  set s := divRound len n with hs
  -- it suffices to compare the unclamped floors
  have hmain : floorDy (mulRound (j + 1) s) ≤ floorDy (mulRound j s) + limit := by
    -- which follows from the real inequality between the two float values
    have hreal : dval (mulRound (j + 1) s) ≤ dval (mulRound j s) + limit := by
      rcases Nat.eq_or_lt_of_le hcov with hexact | hstrict
      · -- len = n * limit: everything is computed exactly
        have hdivex : dval s = (limit : ℚ) := by
          have hdvd : n ∣ len := ⟨limit, hexact⟩
          have hql : len / n = limit := by
            rw [hexact]
            exact Nat.mul_div_cancel_left limit (by omega)
          rw [hs, divRound_exact len n (by omega) hdvd (by omega)]
          rw [hql]
        have hj1 : dval (mulRound (j + 1) s) = (((j + 1) * limit : ℕ) : ℚ) := by
          refine mulRound_exact (j + 1) s ((j + 1) * limit) ?_ ?_
          · rw [hdivex]
            push_cast
            ring
          · have : (j + 1) * limit ≤ n * limit := Nat.mul_le_mul_right limit (by omega)
            omega
        have hj0 : dval (mulRound j s) = ((j * limit : ℕ) : ℚ) := by
          refine mulRound_exact j s (j * limit) ?_ ?_
          · rw [hdivex]
            push_cast
            ring
          · have : j * limit ≤ n * limit := Nat.mul_le_mul_right limit (by omega)
            omega
        rw [hj1, hj0]
        push_cast
        ring_nf
        linarith
      · -- len < n * limit, so dval s is visibly below limit and the
        -- accumulated rounding error cannot bridge the gap
        have hnq : (0 : ℚ) < (n : ℚ) := by exact_mod_cast hn1
        have hlenq : (0 : ℚ) < (len : ℚ) := by
          have : 0 < len := by omega
          exact_mod_cast this
        obtain ⟨hSlo, hShi⟩ := divRound_bounds len n (by omega) (by omega)
        have hS0 : 0 ≤ dval s := dval_nonneg s
        obtain ⟨hBlo, _⟩ := mulRound_bounds j s
        obtain ⟨_, hAhi⟩ := mulRound_bounds (j + 1) s
        -- numeric size facts
        have hnlimq : ((n : ℚ)) * limit ≤ 2 * len := by
          have h1 : n * limit ≤ 2 * len := by omega
          exact_mod_cast h1
        have hlen1q : ((len : ℚ)) + 1 ≤ (n : ℚ) * limit := by
          exact_mod_cast hstrict
        have hsz : ((len : ℚ)) ≤ 2 ^ 24 := by exact_mod_cast hsize
        have hjn : ((j : ℚ)) + 1 ≤ n := by
          exact_mod_cast hj
        have hj0q : (0 : ℚ) ≤ (j : ℚ) := by positivity
        -- abbreviations
        set u : ℚ := 1 / 2 ^ 53 with hu
        have hu0 : (0 : ℚ) < u := by norm_num [hu]
        -- goal reduces to (j+1) S (1+u) ≤ j S (1-u) + limit,
        -- i.e. S (1 + (2j+1) u) ≤ limit, which holds since
        -- S n ≤ len (1+u) ≤ (n limit - 1)(1+u)
        have hnlenq : ((n : ℚ)) ≤ len := by exact_mod_cast hnlen
        have hM2 : ((n : ℚ)) * limit ≤ 2 ^ 25 := by
          have h1 : (2 : ℚ) * len ≤ 2 ^ 25 := by
            rw [show ((2 : ℚ)) ^ 25 = 2 * 2 ^ 24 by norm_num]
            linarith
          linarith
        have hJq : 2 * (j : ℚ) + 1 ≤ 2 ^ 25 := by
          have h1 : (j : ℚ) + 1 ≤ 2 ^ 24 := by linarith
          rw [show ((2 : ℚ)) ^ 25 = 2 * 2 ^ 24 by norm_num]
          linarith
        have hM1 : (1 : ℚ) ≤ (n : ℚ) * limit := by
          have hl1 : (1 : ℚ) ≤ limit := by exact_mod_cast hlim
          nlinarith [hnq, hl1]
        have hJ1 : (1 : ℚ) ≤ 2 * (j : ℚ) + 1 := by linarith
        have hMJ : ((n : ℚ) * limit) * (2 * (j : ℚ) + 1) ≤ 2 ^ 50 := by
          nlinarith [hM2, hJq, hM1, hJ1]
        have hSn : dval s * n ≤ (len : ℚ) * (1 + u) := hShi
        have hfac : (0 : ℚ) ≤ 1 + (2 * (j : ℚ) + 1) * u := by
          have : (0 : ℚ) ≤ (2 * (j : ℚ) + 1) * u := by positivity
          linarith
        have hstep1 : dval s * n * (1 + (2 * (j : ℚ) + 1) * u) ≤
            ((n : ℚ) * limit - 1) * (1 + u) * (1 + (2 * (j : ℚ) + 1) * u) := by
          have h1 : dval s * n ≤ ((n : ℚ) * limit - 1) * (1 + u) := by
            have h2 : ((len : ℚ)) ≤ (n : ℚ) * limit - 1 := by linarith
            have h3 : ((len : ℚ)) * (1 + u) ≤ ((n : ℚ) * limit - 1) * (1 + u) := by
              have hu1 : (0 : ℚ) ≤ 1 + u := by linarith
              exact mul_le_mul_of_nonneg_right h2 hu1
            linarith
          exact mul_le_mul_of_nonneg_right h1 hfac
        have hstep2 : ((n : ℚ) * limit - 1) * (1 + u) * (1 + (2 * (j : ℚ) + 1) * u) ≤
            (n : ℚ) * limit := by
          rw [hu]
          nlinarith [hMJ, hM2, hJq, hM1, hJ1, hu0]
        have hSbound : dval s * (1 + (2 * (j : ℚ) + 1) * u) * n ≤
            (limit : ℚ) * n := by
          calc dval s * (1 + (2 * (j : ℚ) + 1) * u) * n =
              dval s * n * (1 + (2 * (j : ℚ) + 1) * u) := by ring
          _ ≤ (n : ℚ) * limit := le_trans hstep1 hstep2
          _ = (limit : ℚ) * n := by ring
        have hSineq : dval s * (1 + (2 * (j : ℚ) + 1) * u) ≤ limit :=
          le_of_mul_le_mul_right hSbound hnq
        have hkey : ((j : ℚ) + 1) * dval s * (1 + u) ≤
            (j : ℚ) * dval s * (1 - u) + limit := by
          have hexp : ((j : ℚ) + 1) * dval s * (1 + u) =
              (j : ℚ) * dval s * (1 - u) +
                dval s * (1 + (2 * (j : ℚ) + 1) * u) := by ring
          rw [hexp]
          linarith
        have h1 : dval (mulRound (j + 1) s) ≤
            ((j : ℚ) + 1) * dval s * (1 + u) := by
          have : (((j + 1 : ℕ)) : ℚ) = (j : ℚ) + 1 := by push_cast; ring
          rw [this] at hAhi
          exact hAhi
        have h2 : (j : ℚ) * dval s * (1 - u) ≤ dval (mulRound j s) := hBlo
        calc dval (mulRound (j + 1) s) ≤ ((j : ℚ) + 1) * dval s * (1 + u) := h1
        _ ≤ (j : ℚ) * dval s * (1 - u) + limit := hkey
        _ ≤ dval (mulRound j s) + limit := by linarith
    -- floors: ⌊A⌋ ≤ ⌊B + limit⌋ = ⌊B⌋ + limit
    have hfl : ⌊dval (mulRound (j + 1) s)⌋ ≤ ⌊dval (mulRound j s)⌋ + limit := by
      have h1 := Int.floor_le_floor hreal
      rw [show dval (mulRound j s) + (limit : ℚ) =
        dval (mulRound j s) + ((limit : ℕ) : ℚ) by norm_num] at h1
      rw [Int.floor_add_nat] at h1
      omega
    have h2 := floorDy_eq (mulRound (j + 1) s)
    have h3 := floorDy_eq (mulRound j s)
    omega
  show min (floorDy (mulRound (j + 1) s)) len - floorDy (mulRound j s) ≤ limit
  omega

theorem foldl_invariant_mem {α : Type} {β : Type} (f : α → β → α)
    (P : α → Prop) :
    ∀ (l : List β), (∀ a b, b ∈ l → P a → P (f a b)) →
      ∀ init, P init → P (l.foldl f init) := by
  intro l
  induction l with
  | nil => intro _ init h0; exact h0
  | cons x xs ih =>
      intro hstep init h0
      exact ih (fun a b hb ha => hstep a b (List.mem_cons_of_mem x hb) ha) _
        (hstep init x (List.mem_cons_self x xs) h0)

/-- Invariant: every emitted chunk so far respects the length limit. -/
def durLeInv (limit : ℕ) (st : SplitState) : Prop :=
  ∀ c ∈ st.2.2, c.dur ≤ limit

theorem innerStep_durLe (len limit : ℕ) (ok : ℕ → Bool) (hlim : 0 < limit)
    (hlen : limit < len) (hsize : len ≤ 2 ^ 24) :
    ∀ st j, j < numSub len limit → durLeInv limit st →
      durLeInv limit (innerStep len limit ok st j) := by
  rintro ⟨att, tot, acc⟩ j hj h
  unfold innerStep
  dsimp only
  split
  · exact h
  · rename_i hlt
    split
    · intro c hc
      rcases List.mem_append.mp hc with hc | hc
      · exact h c hc
      · rcases List.mem_singleton.mp hc with rfl
        show (subBounds len limit j).2 - (subBounds len limit j).1 ≤ limit
        exact subBounds_le len limit j hlim hlen hsize hj
    · exact h

theorem processOne_durLe (limit : ℕ) (ok : ℕ → Bool) (hlim : 0 < limit) :
    ∀ st len, len ≤ 2 ^ 24 → durLeInv limit st →
      durLeInv limit (processOne limit ok st len) := by
  rintro ⟨att, tot, acc⟩ len hsize h
  unfold processOne
  split
  · rename_i hlen
    refine foldl_invariant_mem _ (durLeInv limit) _ ?_ _ h
    intro a j hj ha
    exact innerStep_durLe len limit ok hlim hlen hsize a j
      (List.mem_range.mp hj) ha
  · split
    · exact h
    · rename_i hlen hshort
      dsimp only
      split
      · intro c hc
        rcases List.mem_append.mp hc with hc | hc
        · exact h c hc
        · rcases List.mem_singleton.mp hc with rfl
          show len ≤ limit
          omega
      · exact h

/-- C5 (amended): the sub-chunk count is the smallest number of equal parts
with quotient at most the limit (ceiling division) — and for every audio and
silence decomposition of realistic length (every segment at most `2 ^ 24` ms
~ 4.6 hours), every emitted chunk, time-split sub-chunks included, has
duration at most `chunk_length_limit_ms`.  (Beyond that length, float
rounding can exceed the limit by one millisecond — see the
counterexample.) -/
theorem claim5_amended_bounded_subchunks (audioLen : ℕ) (silence : List ℕ)
    (limit : ℕ) (ok : ℕ → Bool) (hlim : 0 < limit) (hb : audioLen ≤ 2 ^ 24)
    (hs : ∀ l ∈ silence, l ≤ 2 ^ 24) :
    (∀ len, limit < len →
      len ≤ numSub len limit * limit ∧
      (numSub len limit - 1) * limit < len) ∧
    ∀ c ∈ splitAudioIntelligently audioLen silence limit ok,
      c.dur ≤ limit := by
  constructor
  · intro len hlen
    obtain ⟨hn1, _, hcov, htight⟩ := numSub_facts len limit hlim hlen
    refine ⟨hcov, ?_⟩
    have hsub : (numSub len limit - 1) * limit =
        numSub len limit * limit - limit := by
      rw [Nat.sub_mul, one_mul]
    omega
  · have hseg : ∀ l ∈ segmentsForProcessing audioLen silence, l ≤ 2 ^ 24 := by
      intro l hl
      unfold segmentsForProcessing at hl
      rcases hsil : silence.isEmpty with _ | _
      · rw [hsil] at hl
        simp only [Bool.false_eq_true, if_false] at hl
        exact hs l hl
      · rw [hsil] at hl
        simp only [if_true] at hl
        rcases List.mem_singleton.mp hl with rfl
        exact hb
    have h := foldl_invariant_mem (processOne limit ok) (durLeInv limit)
      (segmentsForProcessing audioLen silence)
      (fun a len hlen ha => processOne_durLe limit ok hlim a len
        (hseg len hlen) ha)
      (0, 0, []) (by intro c hc; cases hc)
    exact h

/-- C5 amended witness: a 150 ms segment with a 50 ms limit — three 50 ms
sub-chunks, all within the limit, and the sub-chunk count 3 is minimal. -/
theorem claim5_amended_witness :
    (∀ len, 50 < len →
      len ≤ numSub len 50 * 50 ∧ (numSub len 50 - 1) * 50 < len) ∧
    ∀ c ∈ splitAudioIntelligently 0 [150] 50 (fun _ => true), c.dur ≤ 50 :=
  claim5_amended_bounded_subchunks 0 [150] 50 (fun _ => true) (by decide)
    (by decide) (by decide)

/-- Emitted durations of the time-splitting inner loop, when every export
succeeds: exactly the nonempty sub-chunk spans, in order. -/
theorem innerStep_true (len limit att tot : ℕ) (acc : List Emitted) (j : ℕ) :
    innerStep len limit (fun _ => true) (att, tot, acc) j =
      if (subBounds len limit j).2 ≤ (subBounds len limit j).1 then
        (att, tot, acc)
      else (att + 1, tot + 1, acc ++
        [⟨tot, (subBounds len limit j).2 - (subBounds len limit j).1,
          true⟩]) := by
  by_cases hcond : (subBounds len limit j).2 ≤ (subBounds len limit j).1
  · simp [innerStep, hcond]
  · simp [innerStep, hcond]

/-- Emitted durations of the time-splitting inner loop, when every export
succeeds: exactly the nonempty sub-chunk spans, in order. -/
theorem innerFold_durs (len limit : ℕ) :
    ∀ (js : List ℕ) (att tot : ℕ) (acc : List Emitted),
      ((js.foldl (innerStep len limit (fun _ => true))
          (att, tot, acc)).2.2).map Emitted.dur =
        acc.map Emitted.dur ++ js.filterMap (fun j =>
          let p := subBounds len limit j
          if p.2 ≤ p.1 then none else some (p.2 - p.1)) := by
  intro js
  induction js with
  | nil => intro att tot acc; simp
  | cons j js ih =>
      intro att tot acc
      rw [List.foldl_cons, innerStep_true, List.filterMap_cons]
      by_cases hcond :
          (subBounds len limit j).2 ≤ (subBounds len limit j).1
      · rw [if_pos hcond, ih]
        dsimp only
        rw [if_pos hcond]
      · rw [if_neg hcond, ih]
        dsimp only
        rw [if_neg hcond]
        simp

theorem splitAudio_single_durs (a seg limit : ℕ) (h : limit < seg) :
    (splitAudioIntelligently a [seg] limit (fun _ => true)).map Emitted.dur =
      (List.range (numSub seg limit)).filterMap (fun j =>
        let p := subBounds seg limit j
        if p.2 ≤ p.1 then none else some (p.2 - p.1)) := by
  unfold splitAudioIntelligently segmentsForProcessing
  simp only [List.isEmpty_cons, Bool.false_eq_true, if_false, List.foldl_cons,
    List.foldl_nil]
  unfold processOne
  rw [if_pos h]
  rw [innerFold_durs seg limit (List.range (numSub seg limit)) 0 0 []]
  rfl

/-- C5 (counterexample): the claim states every time-split sub-chunk has
duration at most `chunk_length_limit_ms`.  False in general: for a segment
of 41 005 601 575 805 ms with `chunk_length_limit_ms = 12 345 678`, the
sub-chunk at `j = 1 424 967` spans 17 592 183 742 622 … 17 592 196 088 301,
i.e. 12 345 679 ms — one millisecond over the limit — because the two
boundary products `j * sub_chunk_len` and `(j + 1) * sub_chunk_len` round in
opposite directions across an integer boundary.  (The input is far beyond
any physically realizable audio, which is why the amended claim bounds the
segment length.) -/
theorem claim5_subchunk_exceeds_limit :
    ¬ ∀ c ∈ splitAudioIntelligently 41005601575805 [41005601575805] 12345678
        (fun _ => true), c.dur ≤ 12345678 := by
  intro hall
  have hmem : (12345679 : ℕ) ∈
      (splitAudioIntelligently 41005601575805 [41005601575805] 12345678
        (fun _ => true)).map Emitted.dur := by
    rw [splitAudio_single_durs _ _ _ (by norm_num)]
    refine List.mem_filterMap.mpr ⟨1424967, List.mem_range.mpr ?_, ?_⟩
    · decide
    · decide
  obtain ⟨c, hc, hd⟩ := List.mem_map.mp hmem
  have := hall c hc
  omega
